import Mathlib

/-!
Verification of the incremental push/sync engine of `gitbutler`
(`src/gitbutler-app/src/watcher/handlers/push_project_to_gitbutler.rs`)
and the opaque identifier type (`src/packages/tauri/src/id.rs`),
as a shallow embedding in Lean 4.

Commit identifiers (`Oid`) are modelled as natural numbers.  The git
revwalk is modelled by its output: a list of oids, visited in the
graph's reverse-chronological order starting at `from`, with `until`
(and its ancestors) hidden.  Remote pushes and the persisted project
store are modelled by explicit state passing; an oracle decides the
outcome of each successive push call.
-/

namespace GitButler

/-- Chunking of a list into consecutive groups of `n` elements, the last
group possibly shorter; mirrors `itertools`' `chunks` as used by
`batch_rev_walk`.  (For `n = 0`, where the Rust iterator adaptor is
never used by this code, we return `[]`.) -/
def chunksFuel : Nat → Nat → List α → List (List α)
  | 0, _, _ => []
  | fuel + 1, n, l =>
    if l.length = 0 ∨ n = 0 then []
    else l.take n :: chunksFuel fuel n (l.drop n)

def chunks (n : Nat) (l : List α) : List (List α) := chunksFuel l.length n l

theorem chunksFuel_congr (f1 f2 n : Nat) (l : List α)
    (h1 : l.length ≤ f1) (h2 : l.length ≤ f2) :
    chunksFuel f1 n l = chunksFuel f2 n l := by
  induction f1 generalizing f2 l with
  | zero =>
    have hl : l = [] := List.eq_nil_of_length_eq_zero (Nat.le_zero.mp h1)
    subst hl
    cases f2 with
    | zero => rfl
    | succ f2 => rfl
  | succ f1 ih =>
    cases f2 with
    | zero =>
      have hl : l = [] := List.eq_nil_of_length_eq_zero (Nat.le_zero.mp h2)
      subst hl
      rfl
    | succ f2 =>
      simp only [chunksFuel]
      by_cases hc : l.length = 0 ∨ n = 0
      · rw [if_pos hc, if_pos hc]
      · push_neg at hc
        simp only [if_neg (by omega : ¬ (l.length = 0 ∨ n = 0))]
        have hd : (l.drop n).length ≤ f1 := by
          simp only [List.length_drop]; omega
        have hd2 : (l.drop n).length ≤ f2 := by
          simp only [List.length_drop]; omega
        rw [ih f2 (l.drop n) hd hd2]

theorem chunks_nil (n : Nat) : chunks n ([] : List α) = [] := by
  simp [chunks, chunksFuel]

theorem chunks_zero (l : List α) : chunks 0 l = [] := by
  cases l <;> simp [chunks, chunksFuel]

theorem chunks_cons (n : Nat) (l : List α) (hn : n ≠ 0) (hl : l ≠ []) :
    chunks n l = l.take n :: chunks n (l.drop n) := by
  have hlen : l.length ≠ 0 := by
    intro hc; exact hl (List.eq_nil_of_length_eq_zero hc)
  obtain ⟨f, hf⟩ : ∃ f, l.length = f + 1 := ⟨l.length - 1, by omega⟩
  unfold chunks
  rw [hf]
  simp only [chunksFuel, if_neg (by omega : ¬ (l.length = 0 ∨ n = 0))]
  have : (l.drop n).length ≤ f := by
    simp only [List.length_drop]; omega
  rw [chunksFuel_congr f (l.drop n).length n (l.drop n) this (le_refl _)]

/-- Model of `batch_rev_walk` from `push_project_to_gitbutler.rs`: given the
revwalk output `traversal` (pushed at `fromOid`, hiding the
previously acknowledged commit), record `fromOid` first, then the last
element of every `batch_size`-sized chunk of the traversal, skipping
any chunk boundary equal to `fromOid`. -/
def batch_rev_walk (batch_size : Nat) (fromOid : Nat) (traversal : List Nat) : List Nat :=
  fromOid ::
    (((chunks batch_size traversal).filterMap List.getLast?).filter (fun o => o != fromOid))

theorem chunks_append_of_length (n : Nat) (a b : List α) (ha : a.length = n) (hn : n ≠ 0) :
    chunks n (a ++ b) = a :: chunks n b := by
  have hane : a ≠ [] := by
    intro h
    subst h
    simp at ha
    exact hn ha.symm
  rw [chunks_cons n (a ++ b) hn (by simp [hane])]
  rw [← ha, List.take_left, List.drop_left]

theorem chunks_of_length_le (n : Nat) (l : List α) (hl : l ≠ []) (hn : n ≠ 0)
    (h : l.length ≤ n) : chunks n l = [l] := by
  rw [chunks_cons n l hn hl, List.take_of_length_le h, List.drop_eq_nil_of_le h, chunks_nil]

theorem getLast?_range'_of_ne (s m : Nat) (hm : m ≠ 0) :
    (List.range' s m).getLast? = some (s + m - 1) := by
  obtain ⟨k, rfl⟩ : ∃ k, m = k + 1 := ⟨m - 1, by omega⟩
  rw [List.range'_concat, List.getLast?_concat]
  congr 1
  omega

/-- Number of chunks is at most the ceiling of `length / n`. -/
theorem chunks_length_le (n : Nat) (hn : 0 < n) :
    ∀ (k : Nat) (l : List α), l.length ≤ k →
      (chunks n l).length ≤ (l.length + n - 1) / n := by
  intro k
  induction k with
  | zero =>
    intro l hl
    have : l = [] := List.eq_nil_of_length_eq_zero (Nat.le_zero.mp hl)
    subst this
    simp [chunks_nil]
  | succ k ih =>
    intro l hl
    rcases eq_or_ne l [] with rfl | hne
    · simp [chunks_nil]
    · rw [chunks_cons n l (by omega) hne]
      have hlen : l.length ≠ 0 := by
        intro hc; exact hne (List.eq_nil_of_length_eq_zero hc)
      have hd := ih (l.drop n) (by simp only [List.length_drop]; omega)
      simp only [List.length_cons, List.length_drop] at hd ⊢
      rcases le_or_lt l.length n with hle | hlt
      · have : l.length - n = 0 := by omega
        rw [this] at hd
        have h1 : (0 + n - 1) / n = 0 := Nat.div_eq_of_lt (by omega)
        rw [h1] at hd
        have h2 : 1 ≤ (l.length + n - 1) / n := by
          have : n ≤ l.length + n - 1 := by omega
          calc 1 = n / n := (Nat.div_self hn).symm
            _ ≤ (l.length + n - 1) / n := Nat.div_le_div_right this
        omega
      · have he2 : l.length + n - 1 = (l.length - 1) + n := by omega
        rw [he2, Nat.add_div_right _ hn]
        have he3 : l.length - n + n - 1 = l.length - 1 := by omega
        rw [he3] at hd
        omega

/-- Every element of every chunk is an element of the chunked list. -/
theorem mem_of_mem_chunks (n : Nat) :
    ∀ (k : Nat) (l : List α), l.length ≤ k →
      ∀ c ∈ chunks n l, ∀ x ∈ c, x ∈ l := by
  intro k
  induction k with
  | zero =>
    intro l hl
    have : l = [] := List.eq_nil_of_length_eq_zero (Nat.le_zero.mp hl)
    subst this
    simp [chunks_nil]
  | succ k ih =>
    intro l hl c hc x hx
    rcases eq_or_ne l [] with rfl | hne
    · simp [chunks_nil] at hc
    · rcases eq_or_ne n 0 with rfl | hn
      · simp [chunks_zero] at hc
      · rw [chunks_cons n l hn hne] at hc
        rcases List.mem_cons.mp hc with rfl | hc'
        · exact List.take_subset n l hx
        · have hlen : l.length ≠ 0 := by
            intro h0; exact hne (List.eq_nil_of_length_eq_zero h0)
          have := ih (l.drop n) (by simp only [List.length_drop]; omega) c hc' x hx
          exact List.drop_subset n l this

/-- C6 helper: the concrete checkpoint list for a 2500-commit traversal
with batch size 1000. -/
theorem batch_rev_walk_range_2500 :
    batch_rev_walk 1000 0 (List.range 2500) = [0, 999, 1999, 2499] := by
  have hsplit : List.range 2500 =
      List.range' 0 1000 ++ (List.range' 1000 1000 ++ List.range' 2000 500) := by
    rw [List.range_eq_range']
    have h2 : List.range' 1000 1000 ++ List.range' 2000 500 = List.range' 1000 1500 := by
      have := List.range'_append 1000 1000 500 1
      norm_num at this
      exact this
    rw [h2]
    have := List.range'_append 0 1000 1500 1
    norm_num at this
    exact this.symm
  have hchunks : chunks 1000 (List.range 2500) =
      [List.range' 0 1000, List.range' 1000 1000, List.range' 2000 500] := by
    rw [hsplit]
    rw [chunks_append_of_length 1000 _ _ (by simp) (by norm_num)]
    rw [chunks_append_of_length 1000 _ _ (by simp) (by norm_num)]
    rw [chunks_of_length_le 1000 _ (by simp) (by norm_num) (by simp)]
  unfold batch_rev_walk
  rw [hchunks]
  simp only [List.filterMap_cons, List.filterMap_nil,
    getLast?_range'_of_ne 0 1000 (by norm_num),
    getLast?_range'_of_ne 1000 1000 (by norm_num),
    getLast?_range'_of_ne 2000 500 (by norm_num)]
  decide

/-- One step of ancestry in the commit graph: `b` is a direct parent of `a`. -/
def ParentStep (parents : Nat → List Nat) (a b : Nat) : Prop := b ∈ parents a

/-- Relation `Reach parents a b`: holds when `b` is `a` itself or an ancestor of `a`
(reachable via repeated parent steps). -/
def Reach (parents : Nat → List Nat) : Nat → Nat → Prop :=
  Relation.ReflTransGen (ParentStep parents)

theorem reach_no_parents (a b : Nat) (h : Reach (fun _ => []) a b) : b = a := by
  induction h with
  | refl => rfl
  | tail _ hstep _ => exact absurd hstep (List.not_mem_nil _)

/-- C6: for every input, `batch_rev_walk` returns a non-empty list whose
first element is the `from` target commit, and an empty traversal yields
exactly `[target]`. -/
theorem batch_rev_walk_head (batch_size fromOid : Nat) (traversal : List Nat) :
    batch_rev_walk batch_size fromOid traversal ≠ [] ∧
    (batch_rev_walk batch_size fromOid traversal).head? = some fromOid ∧
    (traversal = [] → batch_rev_walk batch_size fromOid traversal = [fromOid]) := by
  refine ⟨by simp [batch_rev_walk], rfl, ?_⟩
  rintro rfl
  simp [batch_rev_walk, chunks_nil]

theorem batch_rev_walk_head_witness : batch_rev_walk 1000 7 [] = [7] :=
  (batch_rev_walk_head 1000 7 []).2.2 rfl

/-- C2 counterexample: a revwalk traversal of exactly 2500 commits with
batch size 1000 yields 4 checkpoints, not 3 as claimed. -/
theorem batch_sizing_2500_not_three :
    (batch_rev_walk 1000 0 (List.range 2500)).length ≠ 3 := by
  rw [batch_rev_walk_range_2500]
  decide

/-- C2 (amended): a traversal of exactly 2500 commits with batch size 1000
produces exactly 4 checkpoints — the target plus the boundaries at depths
1000, 2000 and 2500 — and for every traversal of length `n` the result
never has more than `ceil(n / batch_size) + 1` entries. -/
theorem batch_sizing :
    batch_rev_walk 1000 0 (List.range 2500) = [0, 999, 1999, 2499] ∧
    ∀ (bs fromOid : Nat) (traversal : List Nat), 0 < bs →
      (batch_rev_walk bs fromOid traversal).length ≤
        (traversal.length + bs - 1) / bs + 1 := by
  constructor
  · exact batch_rev_walk_range_2500
  · intro bs f t hbs
    unfold batch_rev_walk
    simp only [List.length_cons]
    have h1 := List.length_filter_le (fun o => o != f)
      ((chunks bs t).filterMap List.getLast?)
    have h2 := List.length_filterMap_le List.getLast? (chunks bs t)
    have h3 := chunks_length_le bs hbs t.length t (le_refl _)
    omega

theorem batch_sizing_witness :
    0 < 2 ∧ (batch_rev_walk 2 5 [5, 4, 3]).length ≤ (3 + 2 - 1) / 2 + 1 :=
  ⟨by decide, batch_sizing.2 2 5 [5, 4, 3] (by decide)⟩

/-- C5: if the revwalk hides the persisted checkpoint `untilOid` — so the
traversal contains neither `untilOid` nor any of its ancestors — then no
checkpoint returned by `batch_rev_walk` other than the leading target is
`untilOid` or an ancestor of it. -/
theorem resumability (parents : Nat → List Nat) (batch_size fromOid untilOid : Nat)
    (traversal : List Nat)
    (hhide : ∀ o ∈ traversal, ¬ Reach parents untilOid o) :
    ∀ c ∈ (batch_rev_walk batch_size fromOid traversal).tail,
      ¬ Reach parents untilOid c := by
  intro c hc
  unfold batch_rev_walk at hc
  simp only [List.tail_cons] at hc
  have hc2 := List.mem_of_mem_filter hc
  obtain ⟨chunk, hchunk, hlast⟩ := List.mem_filterMap.mp hc2
  have hmem : c ∈ chunk := List.mem_of_mem_getLast? (Option.mem_def.mpr hlast)
  have hmemt : c ∈ traversal :=
    mem_of_mem_chunks batch_size traversal.length traversal (le_refl _) chunk hchunk c hmem
  exact hhide c hmemt

theorem resumability_witness : ¬ Reach (fun _ => []) 9 4 :=
  resumability (fun _ => []) 2 5 9 [5, 4, 3]
    (fun o ho hr => by
      have h9 := reach_no_parents 9 o hr
      subst h9
      simp at ho)
    4 (by decide)

/-! ## The push/sync handler

`project_repository::RemoteError` is modelled by its two classes that
`handle` distinguishes: `network` (swallowed) and `other` (propagated).
State mutated by the handler — the persisted `CodePushState`, the push
calls made to the gitbutler server, and the progress writes — is
threaded explicitly; `SystemTime::now()` is modelled by a monotone
counter `clock`, and the outcome of each successive
`push_to_gitbutler_server` call by an oracle indexed by the number of
calls made so far. -/

inductive RemoteError where
  | network
  | other
deriving DecidableEq, Repr

/-- Model of `projects::CodePushState`: last pushed commit id plus timestamp. -/
structure CodePushState where
  id : Nat
  timestamp : Nat
deriving DecidableEq, Repr

/-- The mutable world visible to the handler: the persisted push state of
the project, a clock, the count of push calls attempted, the refspec
lists of the push calls that succeeded, and the log of progress writes. -/
structure St where
  push_state : Option CodePushState
  clock : Nat
  calls : Nat
  pushes : List (List String)
  persists : List Nat
deriving DecidableEq, Repr

/-- Outcome of the `k`-th `push_to_gitbutler_server` call: `none` means
success. -/
def PushOracle := Nat → Option RemoteError

/-- The all-successful oracle. -/
def allOk : PushOracle := fun _ => none

/-- Model of `project_repository.push_to_gitbutler_server`. -/
def pushToServer (oracle : PushOracle) (refspecs : List String) (s : St) :
    St × Option RemoteError :=
  match oracle s.calls with
  | some e => ({ s with calls := s.calls + 1 }, some e)
  | none => ({ s with calls := s.calls + 1, pushes := s.pushes ++ [refspecs] }, none)

/-- Model of `HandlerInner::update_project`: persists `{id, timestamp: now}` as the
project's `gitbutler_code_push_state`. -/
def update_project (id : Nat) (s : St) : St :=
  { s with push_state := some ⟨id, s.clock⟩, clock := s.clock + 1,
           persists := s.persists ++ [id] }

def tmpRefspec (pid : String) (id : Nat) : String :=
  "+" ++ toString id ++ ":refs/push-tmp/" ++ pid

def targetRefspec (pid : String) (sha : Nat) : String :=
  "+" ++ toString sha ++ ":refs/" ++ pid

/-- One iteration of the batch loop in `push_target`: the temporary-ref
push followed by the progress write (success case). -/
def applyBatch (pid : String) (s : St) (id : Nat) : St :=
  update_project id
    { s with calls := s.calls + 1, pushes := s.pushes ++ [[tmpRefspec pid id]] }

/-- The `for (idx, id) in ids.iter().enumerate().rev()` loop of
`push_target`, applied to the already-reversed checkpoint list: each
iteration pushes the temporary refspec and then persists progress,
aborting on the first push error. -/
def pushBatches (oracle : PushOracle) (pid : String) (rev_ids : List Nat) (s : St) :
    St × Option RemoteError :=
  match rev_ids with
  | [] => (s, none)
  | id :: rest =>
    match pushToServer oracle [tmpRefspec pid id] s with
    | (s1, some e) => (s1, some e)
    | (s1, none) => pushBatches oracle pid rest (update_project id s1)

/-- Model of `HandlerInner::push_target`: compute the checkpoints, push them
oldest-first via the temporary ref (persisting after each), then push
the target sha onto the real target ref. -/
def push_target (oracle : PushOracle) (pid : String) (batch_size : Nat)
    (target_sha : Nat) (traversal : List Nat) (s : St) : St × Option RemoteError :=
  match pushBatches oracle pid (batch_rev_walk batch_size target_sha traversal).reverse s with
  | (s1, some e) => (s1, some e)
  | (s1, none) => pushToServer oracle [targetRefspec pid target_sha] s1

/-- Model of `git::Refname`, reduced to its kind and display name. -/
inductive Refname where
  | Local (name : String)
  | Remote (name : String)
  | Virtual (name : String)
  | Other (name : String)
deriving DecidableEq, Repr

def Refname.name : Refname → String
  | .Local n => n
  | .Remote n => n
  | .Virtual n => n
  | .Other n => n

/-- The `matches!(r, Remote(_) | Virtual(_) | Local(_))` filter of
`push_all_refs`. -/
def isMirrorKind : Refname → Bool
  | .Local _ => true
  | .Remote _ => true
  | .Virtual _ => true
  | .Other _ => false

def mirrorRefspec (r : Refname) : String :=
  "+" ++ r.name ++ ":" ++ r.name

/-- Model of `push_all_refs`: filter the collected references to branch-like kinds,
build one force-update refspec per retained reference, and issue them as
a single push call. -/
def push_all_refs (oracle : PushOracle) (refs : List Refname) (s : St) :
    St × Option RemoteError :=
  let all_refs := (refs.filter isMirrorKind).map mirrorRefspec
  pushToServer oracle all_refs s

/-- Model of `projects::Project`, reduced to the fields `handle` reads. -/
structure Project where
  sync_enabled : Bool
  has_code_url : Bool
deriving DecidableEq, Repr

/-- The test `!gb_code_last_commit.map(|id| id == default_target.sha).unwrap_or_default()`. -/
def targetChanged (s : St) (sha : Nat) : Bool :=
  !((s.push_state.map (fun ps => ps.id == sha)).getD false)

/-- The batch-push phase of `handle`: run `push_target` only when the
persisted push state differs from the default target's sha. -/
def batchPhase (oracle : PushOracle) (pid : String) (batch_size : Nat)
    (sha : Nat) (traversal : List Nat) (s : St) : St × Option RemoteError :=
  if targetChanged s sha then push_target oracle pid batch_size sha traversal s
  else (s, none)

/-- Model of `HandlerInner::handle`: early-exit when sync is disabled or no code
url is configured; otherwise run the batch-push phase (network errors
swallowed as `Ok []`), then the mirror push (same policy), then persist
progress at the default target's sha. -/
def HandlerInner.handle (oracle : PushOracle) (pid : String) (batch_size : Nat)
    (project : Project) (sha : Nat) (traversal : List Nat)
    (refs : List Refname) (s : St) : Except RemoteError (List Unit) × St :=
  if !(project.sync_enabled && project.has_code_url) then (Except.ok [], s)
  else
    match batchPhase oracle pid batch_size sha traversal s with
    | (s1, some RemoteError.network) => (Except.ok [], s1)
    | (s1, some e) => (Except.error e, s1)
    | (s1, none) =>
      match push_all_refs oracle refs s1 with
      | (s2, some RemoteError.network) => (Except.ok [], s2)
      | (s2, some e) => (Except.error e, s2)
      | (s2, none) => (Except.ok [], update_project sha s2)

/-- Model of `tokio::sync::Mutex::try_lock`, atomically: returns whether the lock
was acquired, together with the gate's state afterwards. -/
def try_lock (gate : Bool) : Bool × Bool := (!gate, true)

/-- Model of `Handler::handle`: the non-blocking single-flight wrapper.  The final
component is the gate after the call completes (released when the body
ran to completion, left held by its owner otherwise). -/
def Handler.handle (gate : Bool) (oracle : PushOracle) (pid : String)
    (batch_size : Nat) (project : Project) (sha : Nat) (traversal : List Nat)
    (refs : List Refname) (s : St) :
    (Except RemoteError (List Unit) × St) × Bool :=
  match try_lock gate with
  | (true, _) =>
    (HandlerInner.handle oracle pid batch_size project sha traversal refs s, false)
  | (false, g1) => ((Except.ok [], s), g1)

/-! ## Laws of the batch loop -/

theorem pushToServer_preserves (oracle : PushOracle) (sp : List String) (s : St) :
    (pushToServer oracle sp s).1.push_state = s.push_state ∧
    (pushToServer oracle sp s).1.persists = s.persists ∧
    (pushToServer oracle sp s).1.clock = s.clock := by
  unfold pushToServer
  cases oracle s.calls <;> simp

theorem foldl_applyBatch_basic (pid : String) (l : List Nat) (s : St) :
    (l.foldl (applyBatch pid) s).pushes =
        s.pushes ++ l.map (fun id => [tmpRefspec pid id]) ∧
    (l.foldl (applyBatch pid) s).persists = s.persists ++ l ∧
    (l.foldl (applyBatch pid) s).clock = s.clock + l.length ∧
    (l.foldl (applyBatch pid) s).calls = s.calls + l.length := by
  induction l generalizing s with
  | nil => simp
  | cons a rest ih =>
    simp only [List.foldl_cons, List.map_cons, List.length_cons]
    obtain ⟨h1, h2, h3, h4⟩ := ih (applyBatch pid s a)
    refine ⟨?_, ?_, ?_, ?_⟩
    · rw [h1]; simp [applyBatch, update_project]
    · rw [h2]; simp [applyBatch, update_project]
    · rw [h3]; simp [applyBatch, update_project]; omega
    · rw [h4]; simp [applyBatch, update_project]; omega

theorem foldl_applyBatch_push_state (pid : String) (l : List Nat) (s : St) :
    (l.foldl (applyBatch pid) s).push_state =
      match l.getLast? with
      | none => s.push_state
      | some id => some ⟨id, s.clock + (l.length - 1)⟩ := by
  induction l generalizing s with
  | nil => rfl
  | cons a rest ih =>
    simp only [List.foldl_cons]
    rw [ih (applyBatch pid s a)]
    cases rest with
    | nil => simp [applyBatch, update_project]
    | cons b rest' =>
      have hne : (b :: rest').getLast? = some ((b :: rest').getLast (by simp)) :=
        List.getLast?_eq_getLast _ (by simp)
      rw [List.getLast?_cons_cons, hne]
      simp only [applyBatch, update_project, List.length_cons]
      congr 2
      omega

/-- The loop `pushBatches` either runs to completion, or stops at the first failed
temporary-ref push with exactly the earlier iterations applied. -/
theorem pushBatches_spec (oracle : PushOracle) (pid : String) (l : List Nat) (s : St) :
    pushBatches oracle pid l s = (l.foldl (applyBatch pid) s, none) ∨
    ∃ j e, j < l.length ∧
      pushBatches oracle pid l s =
        ({ (l.take j).foldl (applyBatch pid) s with
            calls := ((l.take j).foldl (applyBatch pid) s).calls + 1 }, some e) := by
  induction l generalizing s with
  | nil => exact Or.inl rfl
  | cons a rest ih =>
    cases ho : oracle s.calls with
    | some e =>
      refine Or.inr ⟨0, e, by simp, ?_⟩
      simp [pushBatches, pushToServer, ho]
    | none =>
      have hstep : pushBatches oracle pid (a :: rest) s =
          pushBatches oracle pid rest (applyBatch pid s a) := by
        simp [pushBatches, pushToServer, ho, applyBatch]
      rcases ih (applyBatch pid s a) with hok | ⟨j, e, hj, heq⟩
      · exact Or.inl (by rw [hstep, hok]; simp)
      · refine Or.inr ⟨j + 1, e, by simpa using hj, ?_⟩
        rw [hstep, heq]
        simp

theorem pushBatches_allOk (pid : String) (l : List Nat) (s : St) :
    pushBatches allOk pid l s = (l.foldl (applyBatch pid) s, none) := by
  induction l generalizing s with
  | nil => rfl
  | cons a rest ih =>
    simp only [pushBatches, pushToServer, allOk, List.foldl_cons]
    exact ih (applyBatch pid s a)

/-- C1 counterexample: with checkpoint list `[c0, c1] = [10, 20]` and the
final target-ref push failing, the loop has already temporary-pushed and
persisted the target `c0 = 10` itself — the persisted push state equals
`c0` even though the target-ref push did not succeed, refuting both "for
every checkpoint except the very last one processed" and "the persisted
push state equals c0 only after the final push ... succeeds". -/
theorem push_target_persists_target_before_final_push :
    push_target (fun k => if k = 2 then some RemoteError.network else none)
        "p" 1000 10 [10, 20] ⟨none, 0, 0, [], []⟩ =
      ({ push_state := some ⟨10, 1⟩, clock := 2, calls := 3,
         pushes := [[tmpRefspec "p" 20], [tmpRefspec "p" 10]],
         persists := [20, 10] },
       some RemoteError.network) := by
  decide

/-- C1 (amended): with all pushes succeeding, `push_target` pushes the
checkpoints oldest-first (`cn, ..., c1, c0`), temporary-pushing and
persisting progress for **every** checkpoint — the final one processed,
`c0 = target`, included — then issues the target-ref push last; the
persisted push state therefore equals `c0` already when the loop ends,
before the target-ref push. -/
theorem push_target_trace (pid : String) (bs sha : Nat) (trav : List Nat) (s : St) :
    (push_target allOk pid bs sha trav s).2 = none ∧
    (push_target allOk pid bs sha trav s).1.pushes =
      s.pushes ++
        (batch_rev_walk bs sha trav).reverse.map (fun id => [tmpRefspec pid id]) ++
        [[targetRefspec pid sha]] ∧
    (push_target allOk pid bs sha trav s).1.persists =
      s.persists ++ (batch_rev_walk bs sha trav).reverse ∧
    (push_target allOk pid bs sha trav s).1.push_state =
      some ⟨sha, s.clock + ((batch_rev_walk bs sha trav).length - 1)⟩ := by
  unfold push_target
  rw [pushBatches_allOk]
  obtain ⟨hpushes, hpersists, hclock, hcalls⟩ :=
    foldl_applyBatch_basic pid (batch_rev_walk bs sha trav).reverse s
  have hstate := foldl_applyBatch_push_state pid (batch_rev_walk bs sha trav).reverse s
  rw [List.getLast?_reverse] at hstate
  have hhead : (batch_rev_walk bs sha trav).head? = some sha := rfl
  rw [hhead] at hstate
  simp only [pushToServer, allOk]
  refine ⟨trivial, ?_, ?_, ?_⟩
  · simp only [hpushes, List.append_assoc]
  · simpa using hpersists
  · simpa [List.length_reverse] using hstate

/-- Whatever the push outcomes, the state left behind by `push_target`
reflects exactly some prefix of the oldest-first checkpoint iteration:
`j` completed temporary-ref pushes with their progress writes. -/
theorem push_target_state_spec (oracle : PushOracle) (pid : String) (bs sha : Nat)
    (trav : List Nat) (s : St) :
    ∃ j, j ≤ (batch_rev_walk bs sha trav).length ∧
      (push_target oracle pid bs sha trav s).1.persists =
        s.persists ++ (batch_rev_walk bs sha trav).reverse.take j ∧
      (push_target oracle pid bs sha trav s).1.push_state =
        (((batch_rev_walk bs sha trav).reverse.take j).foldl
          (applyBatch pid) s).push_state := by
  unfold push_target
  rcases pushBatches_spec oracle pid (batch_rev_walk bs sha trav).reverse s with
    hok | ⟨j, e, hj, heq⟩
  · rw [hok]
    refine ⟨(batch_rev_walk bs sha trav).length, le_refl _, ?_⟩
    have htake : (batch_rev_walk bs sha trav).reverse.take
        (batch_rev_walk bs sha trav).length = (batch_rev_walk bs sha trav).reverse := by
      rw [← List.length_reverse, List.take_length]
    rw [htake]
    obtain ⟨hp1, hp2, hp3⟩ := pushToServer_preserves oracle [targetRefspec pid sha]
      ((batch_rev_walk bs sha trav).reverse.foldl (applyBatch pid) s)
    obtain ⟨hb1, hb2, hb3, hb4⟩ :=
      foldl_applyBatch_basic pid (batch_rev_walk bs sha trav).reverse s
    exact ⟨by rw [hp2, hb2], hp1⟩
  · rw [heq]
    refine ⟨j, by rw [← List.length_reverse (batch_rev_walk bs sha trav)]; omega, ?_, rfl⟩
    obtain ⟨hb1, hb2, hb3, hb4⟩ :=
      foldl_applyBatch_basic pid ((batch_rev_walk bs sha trav).reverse.take j) s
    exact hb2

/-- C3: a `Network` failure anywhere inside `push_target` makes `handle`
return success with an empty event list, and the persisted push state
reflects exactly the `j` checkpoints whose temporary-ref push and
progress write completed before the failure. -/
theorem network_failure_in_batch_phase (oracle : PushOracle) (pid : String)
    (bs : Nat) (proj : Project) (sha : Nat) (trav : List Nat)
    (refs : List Refname) (s : St)
    (hsync : proj.sync_enabled = true) (hurl : proj.has_code_url = true)
    (hchanged : targetChanged s sha = true)
    (hfail : (push_target oracle pid bs sha trav s).2 = some RemoteError.network) :
    HandlerInner.handle oracle pid bs proj sha trav refs s =
      (Except.ok [], (push_target oracle pid bs sha trav s).1) ∧
    ∃ j, j ≤ (batch_rev_walk bs sha trav).length ∧
      (push_target oracle pid bs sha trav s).1.persists =
        s.persists ++ (batch_rev_walk bs sha trav).reverse.take j ∧
      (push_target oracle pid bs sha trav s).1.push_state =
        (((batch_rev_walk bs sha trav).reverse.take j).foldl
          (applyBatch pid) s).push_state := by
  refine ⟨?_, push_target_state_spec oracle pid bs sha trav s⟩
  rcases hpt : push_target oracle pid bs sha trav s with ⟨s1, e⟩
  rw [hpt] at hfail
  simp only at hfail
  subst hfail
  unfold HandlerInner.handle batchPhase
  rw [hsync, hurl, hchanged]
  simp [hpt]

theorem network_failure_in_batch_phase_witness :
    HandlerInner.handle (fun k => if k = 0 then some RemoteError.network else none)
        "p" 1000 ⟨true, true⟩ 10 [10, 20] [] ⟨none, 0, 0, [], []⟩ =
      (Except.ok [], ⟨none, 0, 1, [], []⟩) := by
  have h := network_failure_in_batch_phase
    (fun k => if k = 0 then some RemoteError.network else none)
    "p" 1000 ⟨true, true⟩ 10 [10, 20] [] ⟨none, 0, 0, [], []⟩
    rfl rfl (by decide) (by decide)
  rw [h.1]
  rfl

/-- C4: the single-flight gate.  An invocation that finds the gate free
acquires it atomically and executes the orchestration body; an
invocation arriving while the gate is held (the second of two
overlapping `try_lock` attempts) acquires nothing and returns
immediately with a successful empty result, leaving every piece of
state untouched — it is dropped, not queued. -/
theorem single_flight (oracle : PushOracle) (pid : String) (bs : Nat)
    (proj : Project) (sha : Nat) (trav : List Nat) (refs : List Refname) (s : St) :
    (try_lock false).1 = true ∧
    (try_lock (try_lock false).2).1 = false ∧
    Handler.handle true oracle pid bs proj sha trav refs s = ((Except.ok [], s), true) ∧
    Handler.handle false oracle pid bs proj sha trav refs s =
      (HandlerInner.handle oracle pid bs proj sha trav refs s, false) :=
  ⟨rfl, rfl, rfl, rfl⟩

/-- C7: the mirror-push phase retains exactly the references of kind
`Local`, `Remote` or `Virtual`, builds the force-update refspec
`"+r:r"` for each, and issues all of them as one single batched push
call. -/
theorem mirror_push_filters_and_batches (oracle : PushOracle) (refs : List Refname)
    (s : St) (hok : oracle s.calls = none) :
    push_all_refs oracle refs s =
      ({ s with calls := s.calls + 1,
                pushes := s.pushes ++ [(refs.filter isMirrorKind).map mirrorRefspec] },
       none) ∧
    ∀ r : Refname, isMirrorKind r = true ↔
      (∃ nm, r = .Local nm) ∨ (∃ nm, r = .Remote nm) ∨ (∃ nm, r = .Virtual nm) := by
  constructor
  · unfold push_all_refs pushToServer
    rw [hok]
  · intro r
    cases r <;> simp [isMirrorKind]

theorem mirror_push_filters_and_batches_witness :
    push_all_refs allOk
        [Refname.Local "a", Refname.Remote "b", Refname.Virtual "c", Refname.Other "d"]
        ⟨none, 0, 0, [], []⟩ =
      (⟨none, 0, 1, [["+a:a", "+b:b", "+c:c"]], []⟩, none) := by
  have h := (mirror_push_filters_and_batches allOk
    [Refname.Local "a", Refname.Remote "b", Refname.Virtual "c", Refname.Other "d"]
    ⟨none, 0, 0, [], []⟩ rfl).1
  rw [h]
  rfl

/-- C8: when the persisted `lastPushedCommit` already equals the default
target's sha, `handle` skips the batch-push phase, performs only the
single mirror push, re-persists progress at the target sha, and leaves
the persisted commit unchanged in value — only the timestamp is
refreshed. -/
theorem idempotent_second_call (oracle : PushOracle) (pid : String) (bs : Nat)
    (proj : Project) (sha : Nat) (trav : List Nat) (refs : List Refname) (s : St)
    (hsync : proj.sync_enabled = true) (hurl : proj.has_code_url = true)
    (hps : s.push_state.map (fun ps => ps.id) = some sha)
    (hok : oracle s.calls = none) :
    HandlerInner.handle oracle pid bs proj sha trav refs s =
      (Except.ok [],
       { s with calls := s.calls + 1,
                pushes := s.pushes ++ [(refs.filter isMirrorKind).map mirrorRefspec],
                push_state := some ⟨sha, s.clock⟩,
                clock := s.clock + 1,
                persists := s.persists ++ [sha] }) ∧
    (HandlerInner.handle oracle pid bs proj sha trav refs s).2.push_state.map
        (fun ps => ps.id) = s.push_state.map (fun ps => ps.id) := by
  obtain ⟨ps, hps1, hps2⟩ : ∃ ps, s.push_state = some ps ∧ ps.id = sha := by
    cases hsp : s.push_state with
    | none => rw [hsp] at hps; simp at hps
    | some ps =>
      rw [hsp] at hps
      simp at hps
      exact ⟨ps, rfl, hps⟩
  have hch : targetChanged s sha = false := by
    simp [targetChanged, hps1, hps2]
  have hpa : push_all_refs oracle refs s =
      ({ s with calls := s.calls + 1,
                pushes := s.pushes ++ [(refs.filter isMirrorKind).map mirrorRefspec] },
       none) := by
    unfold push_all_refs pushToServer
    rw [hok]
  have hmain : HandlerInner.handle oracle pid bs proj sha trav refs s =
      (Except.ok [],
       { s with calls := s.calls + 1,
                pushes := s.pushes ++ [(refs.filter isMirrorKind).map mirrorRefspec],
                push_state := some ⟨sha, s.clock⟩,
                clock := s.clock + 1,
                persists := s.persists ++ [sha] }) := by
    unfold HandlerInner.handle batchPhase
    rw [hsync, hurl, hch]
    simp only [Bool.and_self, Bool.not_true, Bool.false_eq_true, if_false]
    rw [hpa]
    rfl
  refine ⟨hmain, ?_⟩
  rw [hmain, hps1]
  simp [hps2]

theorem idempotent_second_call_witness :
    HandlerInner.handle allOk "p" 1000 ⟨true, true⟩ 10 [] [Refname.Local "a"]
        ⟨some ⟨10, 5⟩, 6, 3, [], []⟩ =
      (Except.ok [], ⟨some ⟨10, 6⟩, 7, 4, [["+a:a"]], [10]⟩) := by
  have h := (idempotent_second_call allOk "p" 1000 ⟨true, true⟩ 10 [] [Refname.Local "a"]
    ⟨some ⟨10, 5⟩, 6, 3, [], []⟩ rfl rfl (by decide) rfl).1
  rw [h]
  rfl

/-- C10: a `Network` failure in the mirror push after a successful (or
skipped) batch-push phase makes `handle` return success with an empty
list, but the final progress update is skipped: the persisted push
state and its timestamp clock remain exactly what the batch phase left
behind. -/
theorem mirror_network_failure_skips_update (oracle : PushOracle) (pid : String)
    (bs : Nat) (proj : Project) (sha : Nat) (trav : List Nat)
    (refs : List Refname) (s s1 : St)
    (hsync : proj.sync_enabled = true) (hurl : proj.has_code_url = true)
    (hbatch : batchPhase oracle pid bs sha trav s = (s1, none))
    (hfail : (push_all_refs oracle refs s1).2 = some RemoteError.network) :
    HandlerInner.handle oracle pid bs proj sha trav refs s =
      (Except.ok [], (push_all_refs oracle refs s1).1) ∧
    (push_all_refs oracle refs s1).1.push_state = s1.push_state ∧
    (push_all_refs oracle refs s1).1.persists = s1.persists ∧
    (push_all_refs oracle refs s1).1.clock = s1.clock := by
  have hp := pushToServer_preserves oracle ((refs.filter isMirrorKind).map mirrorRefspec) s1
  refine ⟨?_, hp.1, hp.2.1, hp.2.2⟩
  rcases hpa : push_all_refs oracle refs s1 with ⟨s2, e⟩
  rw [hpa] at hfail
  simp only at hfail
  subst hfail
  unfold HandlerInner.handle
  rw [hsync, hurl]
  simp [hbatch, hpa]

theorem mirror_network_failure_skips_update_witness :
    HandlerInner.handle (fun _ => some RemoteError.network) "p" 1000 ⟨true, true⟩ 10 []
        [Refname.Local "a"] ⟨some ⟨10, 5⟩, 6, 3, [], []⟩ =
      (Except.ok [], ⟨some ⟨10, 5⟩, 6, 4, [], []⟩) := by
  have h := (mirror_network_failure_skips_update (fun _ => some RemoteError.network)
    "p" 1000 ⟨true, true⟩ 10 [] [Refname.Local "a"]
    ⟨some ⟨10, 5⟩, 6, 3, [], []⟩ ⟨some ⟨10, 5⟩, 6, 3, [], []⟩
    rfl rfl (by decide) (by decide)).1
  rw [h]
  rfl

/-! ## The opaque identifier type (`src/packages/tauri/src/id.rs`)

`Id<T>` wraps a `uuid::Uuid` (a 128-bit value, modelled as a `Nat`
below `2^128`) with a phantom type tag.  `Display` delegates to the
uuid library's hyphenated lowercase rendering, and `FromStr` to
`Uuid::parse_str`, which accepts the hyphenated 8-4-4-4-12 form (and
the 32-digit simple form; the braced and URN forms the library also
accepts are irrelevant to the round trip and omitted from the model). -/

/-- The lowercase hex digit for a nibble. -/
def hexDigitChar (d : Nat) : Char :=
  if d < 10 then Char.ofNat (48 + d) else Char.ofNat (87 + d)

/-- Value of a hex digit character, upper- or lowercase. -/
def hexVal (c : Char) : Option Nat :=
  if '0' ≤ c ∧ c ≤ '9' then some (c.toNat - 48)
  else if 'a' ≤ c ∧ c ≤ 'f' then some (c.toNat - 87)
  else if 'A' ≤ c ∧ c ≤ 'F' then some (c.toNat - 55)
  else none

/-- The `count` low nibbles of `n`, most significant first. -/
def nibbles : Nat → Nat → List Nat
  | 0, _ => []
  | c + 1, n => n / 16 ^ c % 16 :: nibbles c n

/-- The hyphenated lowercase rendering of a 128-bit value:
8-4-4-4-12 hex digits. -/
def uuidChars (n : Nat) : List Char :=
  let ds := (nibbles 32 n).map hexDigitChar
  ds.take 8 ++ '-' :: (ds.drop 8).take 4 ++ '-' :: (ds.drop 12).take 4 ++
    '-' :: (ds.drop 16).take 4 ++ '-' :: ds.drop 20

def uuidToString (n : Nat) : String := String.mk (uuidChars n)

/-- Accumulating hex parse of a character group. -/
def parseHexAcc : List Char → Nat → Option Nat
  | [], acc => some acc
  | c :: cs, acc =>
    match hexVal c with
    | none => none
    | some d => parseHexAcc cs (acc * 16 + d)

/-- Split a character list into its dash-separated groups. -/
def splitDash : List Char → List (List Char)
  | [] => [[]]
  | c :: cs =>
    if c = '-' then [] :: splitDash cs
    else
      match splitDash cs with
      | [] => [[c]]
      | g :: gs => (c :: g) :: gs

/-- Model of `Uuid::parse_str` on the simple and hyphenated forms. -/
def uuidParseChars (cs : List Char) : Option Nat :=
  match splitDash cs with
  | [g] => if g.length = 32 then parseHexAcc g 0 else none
  | [g1, g2, g3, g4, g5] =>
    if g1.length = 8 ∧ g2.length = 4 ∧ g3.length = 4 ∧ g4.length = 4 ∧ g5.length = 12
    then parseHexAcc (g1 ++ g2 ++ g3 ++ g4 ++ g5) 0
    else none
  | _ => none

def uuidParse (str : String) : Option Nat := uuidParseChars str.data

/-- Model of `Id<T>` from `id.rs`: a uuid tagged with a phantom entity type. -/
structure Id (T : Type) where
  uuid : Nat
deriving DecidableEq, Repr

/-- Model of `impl Display for Id<T>`, delegating to the inner uuid. -/
def Id.display {T : Type} (i : Id T) : String := uuidToString i.uuid

/-- Model of `impl FromStr for Id<T>`, delegating to `Uuid::parse_str`. -/
def Id.fromStr (T : Type) (str : String) : Option (Id T) :=
  (uuidParse str).map Id.mk

theorem nibbles_length (c n : Nat) : (nibbles c n).length = c := by
  induction c with
  | zero => rfl
  | succ c ih => simp [nibbles, ih]

theorem nibbles_lt (c n : Nat) : ∀ d ∈ nibbles c n, d < 16 := by
  induction c with
  | zero => simp [nibbles]
  | succ c ih =>
    intro d hd
    rcases List.mem_cons.mp hd with rfl | hd'
    · exact Nat.mod_lt _ (by norm_num)
    · exact ih d hd'

theorem hexVal_hexDigitChar : ∀ d, d < 16 → hexVal (hexDigitChar d) = some d := by
  decide

theorem hexDigitChar_ne_dash : ∀ d, d < 16 → hexDigitChar d ≠ '-' := by
  decide

theorem parseHexAcc_map (l : List Nat) (hl : ∀ d ∈ l, d < 16) (acc : Nat) :
    parseHexAcc (l.map hexDigitChar) acc =
      some (l.foldl (fun a d => a * 16 + d) acc) := by
  induction l generalizing acc with
  | nil => rfl
  | cons d rest ih =>
    have hd : d < 16 := hl d (List.mem_cons_self d rest)
    simp only [List.map_cons, parseHexAcc, hexVal_hexDigitChar d hd, List.foldl_cons]
    exact ih (fun x hx => hl x (List.mem_cons_of_mem d hx)) (acc * 16 + d)

theorem foldl_nibbles (c : Nat) : ∀ (n acc : Nat),
    (nibbles c n).foldl (fun a d => a * 16 + d) acc = acc * 16 ^ c + n % 16 ^ c := by
  induction c with
  | zero => intro n acc; simp [nibbles, Nat.mod_one]
  | succ c ih =>
    intro n acc
    simp only [nibbles, List.foldl_cons]
    rw [ih n (acc * 16 + n / 16 ^ c % 16)]
    have hsplit : n % 16 ^ (c + 1) = n % 16 ^ c + 16 ^ c * (n / 16 ^ c % 16) := by
      rw [pow_succ]
      exact Nat.mod_mul
    rw [hsplit, pow_succ]
    ring

theorem splitDash_no_dash (a : List Char) (ha : ∀ x ∈ a, x ≠ '-') :
    splitDash a = [a] := by
  induction a with
  | nil => rfl
  | cons c cs ih =>
    have hc : c ≠ '-' := ha c (List.mem_cons_self c cs)
    have ihcs := ih (fun x hx => ha x (List.mem_cons_of_mem c hx))
    simp only [splitDash, if_neg hc, ihcs]

theorem splitDash_append (a b : List Char) (ha : ∀ x ∈ a, x ≠ '-') :
    splitDash (a ++ '-' :: b) = a :: splitDash b := by
  induction a with
  | nil => simp [splitDash]
  | cons c cs ih =>
    have hc : c ≠ '-' := ha c (List.mem_cons_self c cs)
    have ihcs : splitDash (cs.append ('-' :: b)) = cs :: splitDash b :=
      ih (fun x hx => ha x (List.mem_cons_of_mem c hx))
    simp only [List.cons_append, splitDash, if_neg hc, ihcs]

/-- Evaluation of `uuidParseChars` on a string whose dash-groups are five. -/
theorem uuidParseChars_five (g1 g2 g3 g4 g5 cs : List Char)
    (hs : splitDash cs = [g1, g2, g3, g4, g5]) :
    uuidParseChars cs =
      if g1.length = 8 ∧ g2.length = 4 ∧ g3.length = 4 ∧ g4.length = 4 ∧ g5.length = 12
      then parseHexAcc (g1 ++ g2 ++ g3 ++ g4 ++ g5) 0 else none := by
  unfold uuidParseChars
  rw [hs]

theorem uuidParse_toString (n : Nat) (h : n < 2 ^ 128) :
    uuidParse (uuidToString n) = some n := by
  have hdata : (uuidToString n).data = uuidChars n := rfl
  unfold uuidParse
  rw [hdata]
  have hlen : ((nibbles 32 n).map hexDigitChar).length = 32 := by
    rw [List.length_map, nibbles_length]
  have hmem : ∀ x ∈ (nibbles 32 n).map hexDigitChar, x ≠ '-' := by
    intro x hx
    obtain ⟨d, hd, rfl⟩ := List.mem_map.mp hx
    exact hexDigitChar_ne_dash d (nibbles_lt 32 n d hd)
  have hsplit : splitDash (uuidChars n) =
      [((nibbles 32 n).map hexDigitChar).take 8,
       (((nibbles 32 n).map hexDigitChar).drop 8).take 4,
       (((nibbles 32 n).map hexDigitChar).drop 12).take 4,
       (((nibbles 32 n).map hexDigitChar).drop 16).take 4,
       ((nibbles 32 n).map hexDigitChar).drop 20] := by
    unfold uuidChars
    simp only [List.append_assoc, List.cons_append]
    rw [splitDash_append _ _
      (fun x hx => hmem x (List.take_subset 8 _ hx))]
    rw [splitDash_append _ _
      (fun x hx => hmem x (List.drop_subset 8 _ (List.take_subset 4 _ hx)))]
    rw [splitDash_append _ _
      (fun x hx => hmem x (List.drop_subset 12 _ (List.take_subset 4 _ hx)))]
    rw [splitDash_append _ _
      (fun x hx => hmem x (List.drop_subset 16 _ (List.take_subset 4 _ hx)))]
    rw [splitDash_no_dash _
      (fun x hx => hmem x (List.drop_subset 20 _ hx))]
  rw [uuidParseChars_five _ _ _ _ _ _ hsplit]
  have hl1 : (((nibbles 32 n).map hexDigitChar).take 8).length = 8 := by
    rw [List.length_take, hlen]; decide
  have hl2 : ((((nibbles 32 n).map hexDigitChar).drop 8).take 4).length = 4 := by
    rw [List.length_take, List.length_drop, hlen]; decide
  have hl3 : ((((nibbles 32 n).map hexDigitChar).drop 12).take 4).length = 4 := by
    rw [List.length_take, List.length_drop, hlen]; decide
  have hl4 : ((((nibbles 32 n).map hexDigitChar).drop 16).take 4).length = 4 := by
    rw [List.length_take, List.length_drop, hlen]; decide
  have hl5 : (((nibbles 32 n).map hexDigitChar).drop 20).length = 12 := by
    rw [List.length_drop, hlen]
  rw [if_pos ⟨hl1, hl2, hl3, hl4, hl5⟩]
  have hconcat : ((nibbles 32 n).map hexDigitChar).take 8 ++
      ((((nibbles 32 n).map hexDigitChar).drop 8).take 4 ++
        ((((nibbles 32 n).map hexDigitChar).drop 12).take 4 ++
          ((((nibbles 32 n).map hexDigitChar).drop 16).take 4 ++
            ((nibbles 32 n).map hexDigitChar).drop 20))) =
      (nibbles 32 n).map hexDigitChar := by
    have e20 : ((nibbles 32 n).map hexDigitChar).drop 20 =
        (((nibbles 32 n).map hexDigitChar).drop 16).drop 4 := by
      rw [List.drop_drop]
    have e16 : ((nibbles 32 n).map hexDigitChar).drop 16 =
        (((nibbles 32 n).map hexDigitChar).drop 12).drop 4 := by
      rw [List.drop_drop]
    have e12 : ((nibbles 32 n).map hexDigitChar).drop 12 =
        (((nibbles 32 n).map hexDigitChar).drop 8).drop 4 := by
      rw [List.drop_drop]
    rw [e20, List.take_append_drop, e16, List.take_append_drop, e12,
      List.take_append_drop, List.take_append_drop]
  simp only [List.append_assoc]
  rw [hconcat]
  rw [parseHexAcc_map (nibbles 32 n) (nibbles_lt 32 n) 0]
  rw [foldl_nibbles 32 n 0]
  congr 1
  have h16 : (16 : Nat) ^ 32 = 2 ^ 128 := by norm_num
  rw [Nat.zero_mul, Nat.zero_add, h16]
  exact Nat.mod_eq_of_lt h

/-- C9: for every entity kind `T` and every identifier `Id T`, parsing
the string produced by its display rendering returns the original
identifier. -/
theorem id_text_roundtrip (T : Type) (i : Id T) (h : i.uuid < 2 ^ 128) :
    Id.fromStr T (Id.display i) = some i := by
  unfold Id.fromStr Id.display
  rw [uuidParse_toString i.uuid h]
  rfl

theorem id_text_roundtrip_witness :
    Id.fromStr Unit (Id.display (⟨123⟩ : Id Unit)) = some ⟨123⟩ :=
  id_text_roundtrip Unit ⟨123⟩ (by norm_num)

end GitButler
